import Mathlib

/-!
Verification of the flatdb storage engine (a raw append-only two-file
key/value log with a chunk-offset index, a one-way write-to-read commit
transition, a batching front end and a sequential iterator).

The Go source is embedded shallowly: machine bytes are `Nat` values below
256, files are in-memory byte lists paired with an explicit cursor, `uint64`
arithmetic is `Nat` with an explicit `% 2 ^ 64` where the source truncates,
and fallible operations return `Option Err` alongside the updated state.
-/

namespace Flatdb

/-- Error values of the package (the sentinel `errors.New` values plus the
`io.EOF` sentinel that `readChunk` propagates from the index stream). -/
inductive Err where
  | readOnly
  | writeOnly
  | writeFailure
  | readFailure
  | emptyEntry
  | eofErr
  deriving DecidableEq, Repr

/-- Constant `chunkSize = 4 * 1024 * 1024` from the source. -/
def chunkSize : Nat := 4 * 1024 * 1024

/-- Constant `bufferGrowRec = 3000` from the source (growth heuristic
reference count; it only tunes buffer capacity, never contents). -/
def bufferGrowRec : Nat := 3000

/-- Embedding of `binary.PutUvarint`: little-endian base-128 groups, the
continuation bit 0x80 set on every byte except the last. -/
def putUvarint (x : Nat) : List Nat :=
  if x < 128 then [x]
  else (x % 128 + 128) :: putUvarint (x / 128)
termination_by x
decreasing_by exact Nat.div_lt_self (by omega) (by omega)

/-- Loop of `binary.Uvarint`, carrying the accumulator `x`, the shift `s`
and the byte index `i`. Returns the decoded value and the byte count `n`
exactly as the source does: `n = 0` when the buffer is exhausted early,
`n < 0` on 64-bit overflow. The `% 2 ^ 64` mirrors `uint64` truncation. -/
def uvarintLoop : List Nat → Nat → Nat → Nat → Nat × Int
  | [], _, _, _ => (0, 0)
  | b :: rest, x, s, i =>
    if i = 10 then (0, -((i : Int) + 1))
    else if b < 128 then
      if i = 9 ∧ 1 < b then (0, -((i : Int) + 1))
      else ((x ||| (b <<< s)) % 2 ^ 64, (i : Int) + 1)
    else uvarintLoop rest ((x ||| ((b &&& 127) <<< s)) % 2 ^ 64) (s + 7) (i + 1)

/-- Embedding of `binary.Uvarint`. -/
def uvarint (buf : List Nat) : Nat × Int := uvarintLoop buf 0 0 0

/-- Embedding of `binary.BigEndian.PutUint64`: the eight big-endian bytes of
the low 64 bits of `n` (each `byte(v >> k)` is `n / 2 ^ k % 256`). -/
def toBE8 (n : Nat) : List Nat :=
  [n / 2 ^ 56 % 256, n / 2 ^ 48 % 256, n / 2 ^ 40 % 256, n / 2 ^ 32 % 256,
   n / 2 ^ 24 % 256, n / 2 ^ 16 % 256, n / 2 ^ 8 % 256, n % 256]

/-- Embedding of `binary.BigEndian.Uint64` on an 8-byte buffer, written with
the same shift-or chain as the source. Buffers of other shapes (impossible
at its single call site, which checks `n = 8`) decode to 0. -/
def fromBE8 (bs : List Nat) : Nat :=
  match bs with
  | [b0, b1, b2, b3, b4, b5, b6, b7] =>
    b7 ||| (b6 <<< 8) ||| (b5 <<< 16) ||| (b4 <<< 24) ||| (b3 <<< 32) |||
      (b2 <<< 40) ||| (b1 <<< 48) ||| (b0 <<< 56)
  | _ => 0

/-- State of a `FlatDatabase` instance. The two `*os.File` handles are
modelled as in-memory byte lists (`dataFile`, `indexFile`) plus explicit
read cursors (`dataPos`, `indexPos`); writes append, reads consume from the
cursor. `flushLog` is a ghost field: `writeChunk` records there the length
of the data stream at the end of each flush, so that theorems can compare
the bytes the code wrote into the index against that history. The `grow`
capacity heuristic only preallocates; it never changes buffer contents, so
it has no footprint in this model. -/
structure FlatDatabase where
  dataFile : List Nat
  indexFile : List Nat
  read : Bool
  buff : List Nat
  items : Nat
  iterating : Bool
  offset : Nat
  dataPos : Nat
  indexPos : Nat
  flushLog : List Nat
  deriving DecidableEq, Repr

/-- Result of one `os.File.Read` call on an in-memory file: the bytes
obtained, the new cursor, and `io.EOF` when the cursor sits at the end and
at least one byte was requested (a zero-length request returns no error). -/
def fileRead (content : List Nat) (pos k : Nat) : List Nat × Nat × Option Err :=
  if k = 0 then ([], pos, none)
  else if content.length ≤ pos then ([], pos, some Err.eofErr)
  else
    let bytes := (content.drop pos).take k
    (bytes, pos + bytes.length, none)

/-- Embedding of `FlatDatabase.writeChunk`. The in-memory streams accept
every write in full, so the two short-write checks of the source cannot
fire here; the flush itself (move the buffer into the data stream, reset
the item count, append the big-endian offset to the index stream) is
mirrored exactly, and the ghost `flushLog` records the data-stream length
reached by this flush. -/
def FlatDatabase.writeChunk (db : FlatDatabase) (force : Bool) : FlatDatabase × Option Err :=
  if db.buff.length < chunkSize ∧ force = false then (db, none)
  else
    let db1 := { db with
      dataFile := db.dataFile ++ db.buff,
      flushLog := db.flushLog ++ [db.dataFile.length + db.buff.length],
      buff := [], items := 0 }
    ({ db1 with indexFile := db1.indexFile ++ toBE8 db1.offset }, none)

/-- Embedding of `FlatDatabase.Put`: reject empty keys or values, reject
writes in read mode, append the varint-framed record to the buffer, bump
the item count, advance the global offset by the bytes appended, and run a
non-forced flush check. -/
def FlatDatabase.Put (db : FlatDatabase) (key value : List Nat) : FlatDatabase × Option Err :=
  if key.length = 0 ∨ value.length = 0 then (db, some Err.emptyEntry)
  else if db.read then (db, some Err.readOnly)
  else
    let record := putUvarint key.length ++ key ++ putUvarint value.length ++ value
    let db1 := { db with
      buff := db.buff ++ record,
      items := db.items + 1,
      offset := db.offset + record.length }
    db1.writeChunk false

/-- Embedding of `FlatDatabase.readChunk`: read the next 8-byte big-endian
offset from the index stream (propagating `io.EOF`), derive the chunk size
as the difference from the running offset, and read that many bytes from
the data stream into the buffer. The source computes the size by `uint64`
wraparound subtraction; in every state these definitions produce the index
offsets are non-decreasing, so plain truncated subtraction is exact. -/
def FlatDatabase.readChunk (db : FlatDatabase) : FlatDatabase × Option Err :=
  let r := fileRead db.indexFile db.indexPos 8
  let db1 := { db with indexPos := r.2.1 }
  match r.2.2 with
  | some e => (db1, some e)
  | none =>
    if r.1.length ≠ 8 then (db1, some Err.readFailure)
    else
      let offset := fromBE8 r.1
      let size := offset - db1.offset
      let db2 := { db1 with offset := offset }
      let r2 := fileRead db2.dataFile db2.dataPos size
      let db3 := { db2 with dataPos := r2.2.1, buff := r2.1 }
      match r2.2.2 with
      | some e => (db3, some e)
      | none =>
        if r2.1.length ≠ size then (db3, some Err.readFailure) else (db3, none)

/-- Embedding of `FlatDatabase.Commit` on the in-memory state: the forced
flush of `closeNoLock`, then (sync, close, rename of the temporary data
file, directory sync — all invisible to the in-memory stream contents),
then the switch to read mode with the offset reset and both streams
reopened at position zero. Step ordering and error propagation of the
durability sequence are modelled separately by `commitRun`. -/
def FlatDatabase.Commit (db : FlatDatabase) : FlatDatabase × Option Err :=
  match db.writeChunk true with
  | (db1, some e) => (db1, some e)
  | (db1, none) =>
    ({ db1 with read := true, offset := 0, dataPos := 0, indexPos := 0 }, none)

/-- Embedding of `FlatDatabase.Close` (`closeNoLock` without rename or
reopen): on the in-memory state only the forced flush is visible. -/
def FlatDatabase.Close (db : FlatDatabase) : FlatDatabase × Option Err :=
  db.writeChunk true

/-- Iterator state: the engine it aliases, the most recently decoded key
and value views, the recorded terminal error, and the end-of-file flag. -/
structure FlatIterator where
  db : FlatDatabase
  key : List Nat
  val : List Nat
  err : Option Err
  eof : Bool
  deriving DecidableEq, Repr

/-- Embedding of `FlatDatabase.NewIterator`: reject a second live iterator,
otherwise mark the instance as iterating, seek both streams to the start,
reset the running offset and discard residual buffer contents. The two
parameters of the source are ignored interface padding and are omitted. -/
def FlatDatabase.NewIterator (db : FlatDatabase) : FlatDatabase × Option FlatIterator :=
  if db.iterating then (db, none)
  else
    let db1 := { db with
      iterating := true, dataPos := 0, indexPos := 0, offset := 0, buff := [] }
    (db1, some { db := db1, key := [], val := [], err := none, eof := false })

/-- Decoding half of `FlatIterator.Next` (the code after the refill `if`):
read the key-length varint, slice the key, read the value-length varint,
slice the value, and drop the consumed bytes from the buffer. A
non-positive varint byte count returns false without recording an error. -/
def nextDecode (it : FlatIterator) : FlatIterator × Bool :=
  let b := it.db.buff
  let p1 := uvarint b
  if p1.2 ≤ 0 then (it, false)
  else
    let o1 := p1.2.toNat
    let key := (b.drop o1).take p1.1
    let o2 := o1 + p1.1
    let p2 := uvarint (b.drop o2)
    if p2.2 ≤ 0 then (it, false)
    else
      let o3 := o2 + p2.2.toNat
      let val := (b.drop o3).take p2.1
      let o4 := o3 + p2.1
      ({ it with
         key := key, val := val, db := { it.db with buff := b.drop o4 } }, true)

/-- Embedding of `FlatIterator.Next`: refill the buffer through `readChunk`
when it is empty and the end of the stream has not been seen (a clean
`io.EOF` sets the eof flag, any other failure records the error, both
return false), then decode one record from the front of the buffer. -/
def FlatIterator.Next (it : FlatIterator) : FlatIterator × Bool :=
  if it.db.buff.length = 0 ∧ it.eof = false then
    match it.db.readChunk with
    | (db1, some e) =>
      if e = Err.eofErr then ({ it with db := db1, eof := true }, false)
      else ({ it with db := db1, err := some e }, false)
    | (db1, none) => nextDecode { it with db := db1 }
  else nextDecode it

/-- Embedding of `FlatIterator.Error`. -/
def FlatIterator.Error (it : FlatIterator) : Option Err := it.err

/-- Embedding of `FlatIterator.Key`. -/
def FlatIterator.Key (it : FlatIterator) : List Nat := it.key

/-- Embedding of `FlatIterator.Value`. -/
def FlatIterator.Value (it : FlatIterator) : List Nat := it.val

/-- Embedding of `FlatIterator.Release`: clear the exclusivity flag on the
engine the iterator aliases; the resulting engine state is returned. -/
def FlatIterator.Release (it : FlatIterator) : FlatDatabase :=
  { it.db with iterating := false }

/-- State of a `FlatBatch`: the pending key and value lists and the two
running byte totals. The bound engine instance is passed to `Write`
explicitly instead of being stored as a pointer. -/
structure FlatBatch where
  keys : List (List Nat)
  vals : List (List Nat)
  keysize : Nat
  valsize : Nat
  deriving DecidableEq, Repr

/-- Embedding of `FlatDatabase.NewBatch`. -/
def FlatDatabase.NewBatch (_db : FlatDatabase) : FlatBatch :=
  { keys := [], vals := [], keysize := 0, valsize := 0 }

/-- Embedding of `FlatBatch.Put`: append the pair to the pending lists and
accumulate both byte totals; always succeeds. -/
def FlatBatch.Put (fb : FlatBatch) (key value : List Nat) : FlatBatch × Option Err :=
  ({ fb with
     keys := fb.keys ++ [key], vals := fb.vals ++ [value],
     keysize := fb.keysize + key.length,
     valsize := fb.valsize + value.length }, none)

/-- Embedding of `FlatBatch.ValueSize`. -/
def FlatBatch.ValueSize (fb : FlatBatch) : Nat := fb.valsize

/-- Loop of `FlatBatch.Write`: issue one engine `Put` per pending index, in
order, returning at the first failure. -/
def batchWriteLoop (db : FlatDatabase) : List (List Nat) → List (List Nat) →
    FlatDatabase × Option Err
  | [], _ => (db, none)
  | _ :: _, [] => (db, none)
  | k :: ks, v :: vs =>
    match db.Put k v with
    | (db1, none) => batchWriteLoop db1 ks vs
    | (db1, some e) => (db1, some e)

/-- Embedding of `FlatBatch.Write` against a given engine state. -/
def FlatBatch.Write (fb : FlatBatch) (db : FlatDatabase) : FlatDatabase × Option Err :=
  batchWriteLoop db fb.keys fb.vals

/-- Embedding of `FlatBatch.Reset`: clear the pending lists and zero both
byte totals. -/
def FlatBatch.Reset (_fb : FlatBatch) : FlatBatch :=
  { keys := [], vals := [], keysize := 0, valsize := 0 }

/-- Filesystem view of one database directory: optional contents of the
temporary data file, the committed data file and the index file. -/
structure FS where
  tmpFile : Option (List Nat)
  syncedFile : Option (List Nat)
  indexFile : Option (List Nat)
  deriving DecidableEq, Repr

/-- Embedding of `NewFlatDatabase`. Read mode opens the committed data file
and the index file with `O_RDONLY`, which fails without creating anything
when a file is missing; write mode creates or truncates the temporary data
file and the index file. Directory creation by `os.MkdirAll` is outside
this file model. -/
def NewFlatDatabase (fs : FS) (read : Bool) : FS × Option FlatDatabase :=
  if read then
    match fs.syncedFile with
    | none => (fs, none)
    | some data =>
      match fs.indexFile with
      | none => (fs, none)
      | some idx =>
        (fs, some { dataFile := data, indexFile := idx, read := true, buff := [],
                    items := 0, iterating := false, offset := 0, dataPos := 0,
                    indexPos := 0, flushLog := [] })
  else
    ({ fs with tmpFile := some [], indexFile := some [] },
     some { dataFile := [], indexFile := [], read := false, buff := [], items := 0,
            iterating := false, offset := 0, dataPos := 0, indexPos := 0,
            flushLog := [] })

/-- Engine state produced by a successful write-mode `NewFlatDatabase`. -/
def newWriteDB : FlatDatabase :=
  { dataFile := [], indexFile := [], read := false, buff := [], items := 0,
    iterating := false, offset := 0, dataPos := 0, indexPos := 0, flushLog := [] }

/-- Sub-steps of `Commit` in source order: the forced flush of
`closeNoLock`, the two syncs, the two closes, the atomic rename of the
temporary data file, the directory sync, and the two read-only reopens. -/
inductive CommitStep where
  | flush
  | syncData
  | syncIndex
  | closeData
  | closeIndex
  | renameData
  | syncDir
  | openData
  | openIndex
  deriving DecidableEq, Repr

/-- Trace model of `closeNoLock` under an environment that decides the
outcome of each effectful step: records the steps attempted, in source
order, returning at the first failing step exactly as the chained
`if err != nil` returns do. -/
def closeNoLockRun (env : CommitStep → Option Err) : List CommitStep × Option Err :=
  match env CommitStep.flush with
  | some e => ([CommitStep.flush], some e)
  | none =>
    match env CommitStep.syncData with
    | some e => ([CommitStep.flush, CommitStep.syncData], some e)
    | none =>
      match env CommitStep.syncIndex with
      | some e => ([CommitStep.flush, CommitStep.syncData, CommitStep.syncIndex], some e)
      | none =>
        match env CommitStep.closeData with
        | some e => ([CommitStep.flush, CommitStep.syncData, CommitStep.syncIndex,
                      CommitStep.closeData], some e)
        | none =>
          match env CommitStep.closeIndex with
          | some e => ([CommitStep.flush, CommitStep.syncData, CommitStep.syncIndex,
                        CommitStep.closeData, CommitStep.closeIndex], some e)
          | none => ([CommitStep.flush, CommitStep.syncData, CommitStep.syncIndex,
                      CommitStep.closeData, CommitStep.closeIndex], none)

/-- Trace model of `Commit` under the same environment: `closeNoLock`, then
the rename, the directory sync and the two reopens, each chained through
the same first-error return discipline as the source. -/
def commitRun (env : CommitStep → Option Err) : List CommitStep × Option Err :=
  match closeNoLockRun env with
  | (tr, some e) => (tr, some e)
  | (tr, none) =>
    match env CommitStep.renameData with
    | some e => (tr ++ [CommitStep.renameData], some e)
    | none =>
      match env CommitStep.syncDir with
      | some e => (tr ++ [CommitStep.renameData, CommitStep.syncDir], some e)
      | none =>
        match env CommitStep.openData with
        | some e => (tr ++ [CommitStep.renameData, CommitStep.syncDir,
                     CommitStep.openData], some e)
        | none =>
          match env CommitStep.openIndex with
          | some e => (tr ++ [CommitStep.renameData, CommitStep.syncDir,
                       CommitStep.openData, CommitStep.openIndex], some e)
          | none => (tr ++ [CommitStep.renameData, CommitStep.syncDir,
                     CommitStep.openData, CommitStep.openIndex], none)

/-- Reference runner written from the words of the specification: attempt
the given steps in order, return the first error and attempt nothing after
it. -/
def runFirstError (env : CommitStep → Option Err) : List CommitStep →
    List CommitStep × Option Err
  | [] => ([], none)
  | s :: rest =>
    match env s with
    | some e => ([s], some e)
    | none =>
      let r := runFirstError env rest
      (s :: r.1, r.2)

/-- Full ordered list of the Commit sub-steps. -/
def commitOrder : List CommitStep :=
  [CommitStep.flush, CommitStep.syncData, CommitStep.syncIndex, CommitStep.closeData,
   CommitStep.closeIndex, CommitStep.renameData, CommitStep.syncDir,
   CommitStep.openData, CommitStep.openIndex]

/-- Wire encoding of one entry, as `Put` frames it. -/
def encodeRecord (key value : List Nat) : List Nat :=
  putUvarint key.length ++ key ++ putUvarint value.length ++ value

/-- Wire encoding of a sequence of entries. -/
def encodeAll (es : List (List Nat × List Nat)) : List Nat :=
  (es.map fun p => encodeRecord p.1 p.2).flatten

/-- Cumulative data-stream lengths recorded for a sequence of flushed
chunks (each chunk given by the entries it contains), starting from a given
base offset. -/
def cumOffsets (base : Nat) : List (List (List Nat × List Nat)) → List Nat
  | [] => []
  | g :: gs =>
    (base + (encodeAll g).length) :: cumOffsets (base + (encodeAll g).length) gs

/-- Sequential driver: `Put` each entry in order, returning at the first
failure. -/
def putList (db : FlatDatabase) : List (List Nat × List Nat) →
    FlatDatabase × Option Err
  | [] => (db, none)
  | (k, v) :: rest =>
    match db.Put k v with
    | (db1, none) => putList db1 rest
    | (db1, some e) => (db1, some e)

/-- Fuelled iteration driver: call `Next` repeatedly, collecting the
decoded (key, value) pairs until `Next` returns false, and return the final
iterator state. -/
def drain : FlatIterator → Nat → List (List Nat × List Nat) × FlatIterator
  | it, 0 => ([], it)
  | it, fuel + 1 =>
    match it.Next with
    | (it1, true) =>
      let r := drain it1 fuel
      ((it1.key, it1.val) :: r.1, r.2)
    | (it1, false) => ([], it1)

theorem or_mul_two_pow (s : Nat) : ∀ a b : Nat, a < 2 ^ s → a ||| b * 2 ^ s = b * 2 ^ s + a := by
  induction s with
  | zero =>
    intro a b h
    have ha : a = 0 := by omega
    subst ha
    simp
  | succ s ih =>
    intro a b h
    have hbb : b * 2 ^ (s + 1) = b * 2 ^ s * 2 := by ring
    have hdiv2 : (a ||| b * 2 ^ (s + 1)) / 2 = a / 2 ||| b * 2 ^ s := by
      rw [Nat.or_div_two, hbb, Nat.mul_div_cancel _ (by norm_num)]
    have hmod : (a ||| b * 2 ^ (s + 1)) % 2 = a % 2 := by
      have hmod0 : b * 2 ^ (s + 1) % 2 = 0 := by
        rw [hbb]; exact Nat.mul_mod_left _ 2
      have hiff := @Nat.or_mod_two_eq_one a (b * 2 ^ (s + 1))
      rcases Nat.mod_two_eq_zero_or_one a with h2 | h2
      · rcases Nat.mod_two_eq_zero_or_one (a ||| b * 2 ^ (s + 1)) with h1 | h1
        · omega
        · rcases hiff.mp h1 with hc | hc <;> omega
      · have h1 := hiff.mpr (Or.inl h2)
        omega
    have ha2 : a / 2 < 2 ^ s := by
      have hp : 2 ^ (s + 1) = 2 ^ s * 2 := by ring
      omega
    have hrec := ih (a / 2) b ha2
    have hfull := Nat.div_add_mod (a ||| b * 2 ^ (s + 1)) 2
    rw [hdiv2, hrec, hmod] at hfull
    omega

theorem or_shiftLeft_disjoint {s : Nat} (a b : Nat) (h : a < 2 ^ s) :
    a ||| b <<< s = b * 2 ^ s + a := by
  rw [Nat.shiftLeft_eq]
  exact or_mul_two_pow s a b h

theorem putUvarint_small {y : Nat} (h : y < 128) : putUvarint y = [y] := by
  rw [putUvarint]
  exact if_pos h

theorem putUvarint_big {y : Nat} (h : ¬ y < 128) :
    putUvarint y = (y % 128 + 128) :: putUvarint (y / 128) := by
  rw [putUvarint]
  exact if_neg h

theorem putUvarint_length_pos (y : Nat) : 0 < (putUvarint y).length := by
  rw [putUvarint]
  split <;> simp

theorem uvarintLoop_spec (y : Nat) : ∀ i x rest, i ≤ 9 → x < 2 ^ (7 * i) →
    y < 2 ^ (64 - 7 * i) →
    uvarintLoop (putUvarint y ++ rest) x (7 * i) i =
      (x + y * 2 ^ (7 * i), (i : Int) + ((putUvarint y).length : Int)) := by
  induction y using Nat.strong_induction_on with
  | _ y IH =>
    intro i x rest hi hx hy
    have hplt : (0:Nat) < 2 ^ (7 * i) := Nat.pos_pow_of_pos _ (by norm_num)
    by_cases hsmall : y < 128
    · rw [putUvarint_small hsmall]
      simp only [List.cons_append, uvarintLoop]
      rw [if_neg (by omega)]
      rw [if_pos hsmall]
      rw [if_neg (by
        rintro ⟨h9, hb⟩
        subst h9
        norm_num at hy
        omega)]
      have hor := or_shiftLeft_disjoint (s := 7 * i) x y hx
      have hpow : 2 ^ (64 - 7 * i) * 2 ^ (7 * i) = 2 ^ 64 := by
        rw [← pow_add]
        congr 1
        omega
      have hmul : (y + 1) * 2 ^ (7 * i) ≤ 2 ^ (64 - 7 * i) * 2 ^ (7 * i) :=
        Nat.mul_le_mul_right _ (by omega)
      have hsucc : (y + 1) * 2 ^ (7 * i) = y * 2 ^ (7 * i) + 2 ^ (7 * i) := by
        rw [Nat.succ_mul]
      have hbound : y * 2 ^ (7 * i) + x < 2 ^ 64 := by omega
      rw [hor, Nat.mod_eq_of_lt hbound]
      have hcomm : y * 2 ^ (7 * i) + x = x + y * 2 ^ (7 * i) := by omega
      rw [hcomm]
      simp
    · rw [putUvarint_big hsmall]
      simp only [List.cons_append, uvarintLoop]
      have hi8 : i ≤ 8 := by
        rcases Nat.lt_or_ge i 9 with h | h
        · omega
        · exfalso
          have h9 : i = 9 := by omega
          subst h9
          norm_num at hy
          omega
      rw [if_neg (by omega)]
      rw [if_neg (by omega)]
      have hmask : (y % 128 + 128) &&& 127 = y % 128 := by
        have hh := Nat.and_pow_two_sub_one_eq_mod (y % 128 + 128) 7
        norm_num at hh
        omega
      rw [hmask]
      have hor := or_shiftLeft_disjoint (s := 7 * i) x (y % 128) hx
      rw [hor]
      have hps : 2 ^ (7 * (i + 1)) = 2 ^ (7 * i) * 128 := by
        have hexp : 7 * (i + 1) = 7 * i + 7 := by ring
        rw [hexp, pow_add]
        norm_num
      have hle64 : 2 ^ (7 * (i + 1)) ≤ 2 ^ 64 :=
        Nat.pow_le_pow_right (by norm_num) (by omega)
      have hx1 : y % 128 * 2 ^ (7 * i) + x < 2 ^ (7 * (i + 1)) := by
        have h127 : y % 128 ≤ 127 := by omega
        have hm : y % 128 * 2 ^ (7 * i) ≤ 127 * 2 ^ (7 * i) :=
          Nat.mul_le_mul_right _ h127
        omega
      rw [Nat.mod_eq_of_lt (by omega)]
      have hydiv : y / 128 < 2 ^ (64 - 7 * (i + 1)) := by
        have hp2 : 2 ^ (64 - 7 * (i + 1)) * 128 = 2 ^ (64 - 7 * i) := by
          have h27 : (128 : Nat) = 2 ^ 7 := by norm_num
          rw [h27, ← pow_add]
          congr 1
          omega
        omega
      have hrec := IH (y / 128) (Nat.div_lt_self (by omega) (by norm_num))
        (i + 1) (y % 128 * 2 ^ (7 * i) + x) rest (by omega) (by omega) hydiv
      have hseq : 7 * i + 7 = 7 * (i + 1) := by ring
      rw [hseq]
      show uvarintLoop (putUvarint (y / 128) ++ rest)
        (y % 128 * 2 ^ (7 * i) + x) (7 * (i + 1)) (i + 1) = _
      rw [hrec]
      simp only [Prod.mk.injEq, List.length_cons]
      constructor
      · rw [hps, ← Nat.mul_assoc]
        have hsw : y / 128 * 2 ^ (7 * i) * 128 = y / 128 * 128 * 2 ^ (7 * i) := by
          ring
        rw [hsw]
        have hcol : y % 128 * 2 ^ (7 * i) + x + y / 128 * 128 * 2 ^ (7 * i) =
            x + (y / 128 * 128 + y % 128) * 2 ^ (7 * i) := by ring
        rw [hcol]
        congr 2
        omega
      · push_cast
        ring

theorem uvarint_encode (y : Nat) (rest : List Nat) (hy : y < 2 ^ 64) :
    uvarint (putUvarint y ++ rest) = (y, ((putUvarint y).length : Int)) := by
  have h := uvarintLoop_spec y 0 0 rest (by omega) (by norm_num) (by norm_num; omega)
  simpa [uvarint] using h

set_option maxHeartbeats 1600000 in
theorem fromBE8_toBE8 (n : Nat) : fromBE8 (toBE8 n) = n % 2 ^ 64 := by
  simp only [toBE8, fromBE8]
  have h1 : n % 256 ||| (n / 2 ^ 8 % 256) <<< 8 =
      (n / 2 ^ 8 % 256) * 2 ^ 8 + n % 256 :=
    or_shiftLeft_disjoint _ _ (by omega)
  rw [h1]
  have h2 : (n / 2 ^ 8 % 256) * 2 ^ 8 + n % 256 ||| (n / 2 ^ 16 % 256) <<< 16 =
      (n / 2 ^ 16 % 256) * 2 ^ 16 + ((n / 2 ^ 8 % 256) * 2 ^ 8 + n % 256) :=
    or_shiftLeft_disjoint _ _ (by omega)
  rw [h2]
  have h3 : (n / 2 ^ 16 % 256) * 2 ^ 16 + ((n / 2 ^ 8 % 256) * 2 ^ 8 + n % 256) |||
      (n / 2 ^ 24 % 256) <<< 24 =
      (n / 2 ^ 24 % 256) * 2 ^ 24 +
        ((n / 2 ^ 16 % 256) * 2 ^ 16 + ((n / 2 ^ 8 % 256) * 2 ^ 8 + n % 256)) :=
    or_shiftLeft_disjoint _ _ (by omega)
  rw [h3]
  have h4 : (n / 2 ^ 24 % 256) * 2 ^ 24 +
        ((n / 2 ^ 16 % 256) * 2 ^ 16 + ((n / 2 ^ 8 % 256) * 2 ^ 8 + n % 256)) |||
      (n / 2 ^ 32 % 256) <<< 32 =
      (n / 2 ^ 32 % 256) * 2 ^ 32 +
        ((n / 2 ^ 24 % 256) * 2 ^ 24 +
          ((n / 2 ^ 16 % 256) * 2 ^ 16 + ((n / 2 ^ 8 % 256) * 2 ^ 8 + n % 256))) :=
    or_shiftLeft_disjoint _ _ (by omega)
  rw [h4]
  have h5 : (n / 2 ^ 32 % 256) * 2 ^ 32 +
        ((n / 2 ^ 24 % 256) * 2 ^ 24 +
          ((n / 2 ^ 16 % 256) * 2 ^ 16 + ((n / 2 ^ 8 % 256) * 2 ^ 8 + n % 256))) |||
      (n / 2 ^ 40 % 256) <<< 40 =
      (n / 2 ^ 40 % 256) * 2 ^ 40 +
        ((n / 2 ^ 32 % 256) * 2 ^ 32 +
          ((n / 2 ^ 24 % 256) * 2 ^ 24 +
            ((n / 2 ^ 16 % 256) * 2 ^ 16 + ((n / 2 ^ 8 % 256) * 2 ^ 8 + n % 256)))) :=
    or_shiftLeft_disjoint _ _ (by omega)
  rw [h5]
  have h6 : (n / 2 ^ 40 % 256) * 2 ^ 40 +
        ((n / 2 ^ 32 % 256) * 2 ^ 32 +
          ((n / 2 ^ 24 % 256) * 2 ^ 24 +
            ((n / 2 ^ 16 % 256) * 2 ^ 16 + ((n / 2 ^ 8 % 256) * 2 ^ 8 + n % 256)))) |||
      (n / 2 ^ 48 % 256) <<< 48 =
      (n / 2 ^ 48 % 256) * 2 ^ 48 +
        ((n / 2 ^ 40 % 256) * 2 ^ 40 +
          ((n / 2 ^ 32 % 256) * 2 ^ 32 +
            ((n / 2 ^ 24 % 256) * 2 ^ 24 +
              ((n / 2 ^ 16 % 256) * 2 ^ 16 + ((n / 2 ^ 8 % 256) * 2 ^ 8 + n % 256))))) :=
    or_shiftLeft_disjoint _ _ (by omega)
  rw [h6]
  have h7 : (n / 2 ^ 48 % 256) * 2 ^ 48 +
        ((n / 2 ^ 40 % 256) * 2 ^ 40 +
          ((n / 2 ^ 32 % 256) * 2 ^ 32 +
            ((n / 2 ^ 24 % 256) * 2 ^ 24 +
              ((n / 2 ^ 16 % 256) * 2 ^ 16 + ((n / 2 ^ 8 % 256) * 2 ^ 8 + n % 256))))) |||
      (n / 2 ^ 56 % 256) <<< 56 =
      (n / 2 ^ 56 % 256) * 2 ^ 56 +
        ((n / 2 ^ 48 % 256) * 2 ^ 48 +
          ((n / 2 ^ 40 % 256) * 2 ^ 40 +
            ((n / 2 ^ 32 % 256) * 2 ^ 32 +
              ((n / 2 ^ 24 % 256) * 2 ^ 24 +
                ((n / 2 ^ 16 % 256) * 2 ^ 16 +
                  ((n / 2 ^ 8 % 256) * 2 ^ 8 + n % 256)))))) :=
    or_shiftLeft_disjoint _ _ (by omega)
  rw [h7]
  omega

/-- C2: Commit performs its sub-steps in the fixed order forced flush, sync
of both streams, close of both streams, rename of the temporary data file,
sync of the containing directory, then reopening both streams; on a failure
it returns that first error and attempts no later step. Formally, the trace
model of Commit coincides with the run-until-first-error reference runner
applied to the ordered step list. -/
theorem C2_commit_step_order (env : CommitStep → Option Err) :
    commitRun env = runFirstError env commitOrder := by
  rcases h1 : env CommitStep.flush with _ | e1
  · rcases h2 : env CommitStep.syncData with _ | e2
    · rcases h3 : env CommitStep.syncIndex with _ | e3
      · rcases h4 : env CommitStep.closeData with _ | e4
        · rcases h5 : env CommitStep.closeIndex with _ | e5
          · rcases h6 : env CommitStep.renameData with _ | e6
            · rcases h7 : env CommitStep.syncDir with _ | e7
              · rcases h8 : env CommitStep.openData with _ | e8
                · rcases h9 : env CommitStep.openIndex with _ | e9
                  · simp [commitRun, closeNoLockRun, runFirstError, commitOrder,
                      h1, h2, h3, h4, h5, h6, h7, h8, h9]
                  · simp [commitRun, closeNoLockRun, runFirstError, commitOrder,
                      h1, h2, h3, h4, h5, h6, h7, h8, h9]
                · simp [commitRun, closeNoLockRun, runFirstError, commitOrder,
                    h1, h2, h3, h4, h5, h6, h7, h8]
              · simp [commitRun, closeNoLockRun, runFirstError, commitOrder,
                  h1, h2, h3, h4, h5, h6, h7]
            · simp [commitRun, closeNoLockRun, runFirstError, commitOrder,
                h1, h2, h3, h4, h5, h6]
          · simp [commitRun, closeNoLockRun, runFirstError, commitOrder,
              h1, h2, h3, h4, h5]
        · simp [commitRun, closeNoLockRun, runFirstError, commitOrder,
            h1, h2, h3, h4]
      · simp [commitRun, closeNoLockRun, runFirstError, commitOrder, h1, h2, h3]
    · simp [commitRun, closeNoLockRun, runFirstError, commitOrder, h1, h2]
  · simp [commitRun, closeNoLockRun, runFirstError, commitOrder, h1]

/-- C4: committing an engine instance with zero prior successful Put calls
yields an iterator whose first Next call returns false and whose Error
reports none (failed Put calls leave the state untouched, so the fresh
write-mode instance represents every such history). -/
theorem C4_empty_database :
    (newWriteDB.Commit).2 = none ∧
    ((newWriteDB.Commit).1.NewIterator.2.map
      fun it => ((it.Next).2, (it.Next).1.Error)) = some (false, none) := by
  decide

/-- C6: a Put whose key or value is empty returns the EmptyEntry error and
leaves the state untouched — the buffer, both streams, the pending-item
counter and the running offset are all unchanged because the whole state is
returned as it was. -/
theorem C6_empty_entry_rejection (db : FlatDatabase) (key value : List Nat)
    (h : key.length = 0 ∨ value.length = 0) :
    db.Put key value = (db, some Err.emptyEntry) := by
  unfold FlatDatabase.Put
  rw [if_pos h]

/-- C6 witness at a concrete state and input. -/
theorem C6_empty_entry_rejection_witness :
    newWriteDB.Put [] [7] = (newWriteDB, some Err.emptyEntry) :=
  C6_empty_entry_rejection newWriteDB [] [7] (Or.inl rfl)

/-- C10: for every engine state — including a committed, read-only one —
Put with an empty key or value returns EmptyEntry and never ReadOnly: the
empty-entry check precedes the read-only check. -/
theorem C10_empty_check_precedes_readonly (db : FlatDatabase) (key value : List Nat)
    (h : key.length = 0 ∨ value.length = 0) :
    (db.Put key value).2 = some Err.emptyEntry ∧
    (db.Put key value).2 ≠ some Err.readOnly := by
  unfold FlatDatabase.Put
  rw [if_pos h]
  exact ⟨rfl, by simp⟩

/-- C10 witness on a read-mode instance. -/
theorem C10_empty_check_precedes_readonly_witness :
    (({ newWriteDB with read := true } : FlatDatabase).Put [] []).2 =
        some Err.emptyEntry ∧
    (({ newWriteDB with read := true } : FlatDatabase).Put [] []).2 ≠
        some Err.readOnly :=
  C10_empty_check_precedes_readonly { newWriteDB with read := true } [] []
    (Or.inl rfl)

/-- C7: while an instance has an open, unreleased iterator (its iterating
flag is set), any further NewIterator call returns none and leaves the
state unchanged; once Release is called on the open iterator, a subsequent
NewIterator call succeeds. -/
theorem C7_iterator_exclusivity (db : FlatDatabase) (h : db.iterating = true)
    (key val : List Nat) (err : Option Err) (eof : Bool) :
    db.NewIterator = (db, none) ∧
    ((FlatIterator.Release ⟨db, key, val, err, eof⟩).NewIterator.2).isSome = true := by
  constructor
  · unfold FlatDatabase.NewIterator
    rw [if_pos h]
  · unfold FlatIterator.Release FlatDatabase.NewIterator
    simp

/-- C7 witness at a concrete open-iterator state. -/
theorem C7_iterator_exclusivity_witness :
    ({ newWriteDB with iterating := true } : FlatDatabase).NewIterator =
        ({ newWriteDB with iterating := true }, none) ∧
    ((FlatIterator.Release
        ⟨{ newWriteDB with iterating := true }, [], [], none, false⟩).NewIterator.2).isSome
      = true :=
  C7_iterator_exclusivity { newWriteDB with iterating := true } rfl [] [] none false

/-- C9: opening a location read-only when no committed database exists
there (the committed data file, which only the rename inside Commit ever
creates, is absent) fails and leaves the filesystem unchanged — no files
are created. -/
theorem C9_missing_database (fs : FS) (h : fs.syncedFile = none) :
    NewFlatDatabase fs true = (fs, none) := by
  simp [NewFlatDatabase, h]

/-- C9 witness on an empty location. -/
theorem C9_missing_database_witness :
    NewFlatDatabase ⟨none, none, none⟩ true = (⟨none, none, none⟩, none) :=
  C9_missing_database ⟨none, none, none⟩ rfl

theorem writeChunk_err (db : FlatDatabase) (f : Bool) : (db.writeChunk f).2 = none := by
  unfold FlatDatabase.writeChunk
  split <;> rfl

theorem writeChunk_read (db : FlatDatabase) (f : Bool) :
    ((db.writeChunk f).1).read = db.read := by
  unfold FlatDatabase.writeChunk
  split <;> rfl

theorem Put_read (db : FlatDatabase) (key value : List Nat) :
    ((db.Put key value).1).read = db.read := by
  unfold FlatDatabase.Put
  split
  · rfl
  · split
    · rfl
    · rw [writeChunk_read]

theorem commit_read (db : FlatDatabase) : ((db.Commit).1).read = true := by
  unfold FlatDatabase.Commit
  cases hW : db.writeChunk true with
  | mk db1 e =>
    have he := writeChunk_err db true
    rw [hW] at he
    simp at he
    subst he
    rfl

theorem close_read (db : FlatDatabase) : ((db.Close).1).read = db.read :=
  writeChunk_read db true

theorem newIterator_read (db : FlatDatabase) :
    ((db.NewIterator).1).read = db.read := by
  unfold FlatDatabase.NewIterator
  split <;> rfl

theorem readChunk_read (db : FlatDatabase) :
    ((db.readChunk).1).read = db.read := by
  unfold FlatDatabase.readChunk
  dsimp only
  repeat' split <;> try rfl

theorem nextDecode_read (it : FlatIterator) :
    ((nextDecode it).1).db.read = it.db.read := by
  unfold nextDecode
  dsimp only
  repeat' split <;> try rfl

theorem Next_read (it : FlatIterator) : ((it.Next).1).db.read = it.db.read := by
  have hrd := readChunk_read it.db
  unfold FlatIterator.Next
  split
  · rcases hR : it.db.readChunk with ⟨db1, e⟩
    rw [hR] at hrd
    dsimp only at hrd
    cases e with
    | some e1 =>
      simp only [hR]
      split <;> exact hrd
    | none =>
      simp only [hR]
      rw [nextDecode_read]
      exact hrd
  · exact nextDecode_read it

theorem batchWriteLoop_read (ks : List (List Nat)) :
    ∀ vs (db : FlatDatabase), ((batchWriteLoop db ks vs).1).read = db.read := by
  induction ks with
  | nil => intro vs db; rfl
  | cons k ks ih =>
    intro vs db
    cases vs with
    | nil => rfl
    | cons v vs =>
      unfold batchWriteLoop
      cases hP : db.Put k v with
      | mk db1 e =>
        have hpr := Put_read db k v
        rw [hP] at hpr
        cases e with
        | none => rw [ih vs db1]; exact hpr
        | some e1 => exact hpr

/-- One observable operation on an engine instance: a Put, a Commit, a
Close, an iterator acquisition, one iterator step or a release on an
iterator aliasing the instance, or a batch drain. Each constructor reuses
the corresponding state function of the embedding. -/
inductive EngineStep : FlatDatabase → FlatDatabase → Prop where
  | put (db : FlatDatabase) (key value : List Nat) :
      EngineStep db (db.Put key value).1
  | commit (db : FlatDatabase) : EngineStep db (db.Commit).1
  | close (db : FlatDatabase) : EngineStep db (db.Close).1
  | newIterator (db : FlatDatabase) : EngineStep db (db.NewIterator).1
  | next (db : FlatDatabase) (key val : List Nat) (err : Option Err) (eof : Bool) :
      EngineStep db ((FlatIterator.Next ⟨db, key, val, err, eof⟩).1).db
  | release (db : FlatDatabase) (key val : List Nat) (err : Option Err) (eof : Bool) :
      EngineStep db (FlatIterator.Release ⟨db, key, val, err, eof⟩)
  | batchWrite (db : FlatDatabase) (ks vs : List (List Nat)) :
      EngineStep db (batchWriteLoop db ks vs).1

/-- Reachability through any sequence of engine operations. -/
def Reaches : FlatDatabase → FlatDatabase → Prop :=
  Relation.ReflTransGen EngineStep

theorem engineStep_read {a b : FlatDatabase} (hs : EngineStep a b)
    (h : a.read = true) : b.read = true := by
  cases hs with
  | put key value => rw [Put_read]; exact h
  | commit => exact commit_read a
  | close => rw [close_read]; exact h
  | newIterator => rw [newIterator_read]; exact h
  | next key val err eof => rw [Next_read]; exact h
  | release key val err eof => exact h
  | batchWrite ks vs => rw [batchWriteLoop_read]; exact h

theorem reaches_read {a b : FlatDatabase} (hr : Reaches a b)
    (h : a.read = true) : b.read = true := by
  induction hr with
  | refl => exact h
  | tail _hs hstep ih => exact engineStep_read hstep ih

/-- C5: after a Commit, the instance is in read mode and stays there under
every later operation, and in any such state a Put with a non-empty key and
value fails with the ReadOnly error and changes nothing. -/
theorem C5_post_commit_write_rejection (db0 db2 : FlatDatabase)
    (hr : Reaches (db0.Commit).1 db2) (key value : List Nat)
    (hk : key.length ≠ 0) (hv : value.length ≠ 0) :
    db2.Put key value = (db2, some Err.readOnly) := by
  have h2 : db2.read = true := reaches_read hr (commit_read db0)
  unfold FlatDatabase.Put
  rw [if_neg (by rintro (hc | hc) <;> [exact hk hc; exact hv hc])]
  rw [if_pos h2]

/-- C5 witness: immediately after committing the fresh instance. -/
theorem C5_post_commit_write_rejection_witness :
    ((newWriteDB.Commit).1).Put [1] [2] = ((newWriteDB.Commit).1, some Err.readOnly) :=
  C5_post_commit_write_rejection newWriteDB (newWriteDB.Commit).1
    Relation.ReflTransGen.refl [1] [2] (by decide) (by decide)

/-- Batch state reached by pushing a sequence of pairs. -/
def batchPuts (fb : FlatBatch) (ps : List (List Nat × List Nat)) : FlatBatch :=
  ps.foldl (fun b p => (b.Put p.1 p.2).1) fb

theorem batchPuts_fields (ps : List (List Nat × List Nat)) :
    ∀ fb : FlatBatch,
      (batchPuts fb ps).keys = fb.keys ++ ps.map Prod.fst ∧
      (batchPuts fb ps).vals = fb.vals ++ ps.map Prod.snd ∧
      (batchPuts fb ps).valsize = fb.valsize + (ps.map fun p => p.2.length).sum := by
  induction ps with
  | nil => intro fb; simp [batchPuts]
  | cons p ps ih =>
    intro fb
    have hstep := ih (fb.Put p.1 p.2).1
    simp only [batchPuts, List.foldl_cons] at hstep ⊢
    rcases hstep with ⟨h1, h2, h3⟩
    refine ⟨?_, ?_, ?_⟩
    · rw [h1]; simp [FlatBatch.Put]
    · rw [h2]; simp [FlatBatch.Put]
    · rw [h3]; simp [FlatBatch.Put]; ring

theorem batchWriteLoop_map (ps : List (List Nat × List Nat)) :
    ∀ db : FlatDatabase,
      batchWriteLoop db (ps.map Prod.fst) (ps.map Prod.snd) = putList db ps := by
  induction ps with
  | nil => intro db; rfl
  | cons p ps ih =>
    intro db
    simp only [List.map_cons]
    unfold batchWriteLoop putList
    cases hP : db.Put p.1 p.2 with
    | mk db1 e =>
      cases e with
      | none => exact ih db1
      | some e1 => rfl

/-- C8: for a batch freshly created or reset, pushing any sequence of pairs
makes ValueSize the sum of the pushed value lengths; Reset returns the
cleared batch; and Write drains the pending pairs into the engine by one
Put per pair in push order, returning at the first failing Put — which is
exactly the sequential driver putList. -/
theorem C8_batch_semantics (ps : List (List Nat × List Nat))
    (db : FlatDatabase) (fb0 : FlatBatch) :
    (batchPuts (fb0.Reset) ps).ValueSize = (ps.map fun p => p.2.length).sum ∧
    (batchPuts (fb0.Reset) ps).Reset = fb0.Reset ∧
    (batchPuts (fb0.Reset) ps).Write db = putList db ps := by
  obtain ⟨hk, hv, hs⟩ := batchPuts_fields ps fb0.Reset
  refine ⟨?_, rfl, ?_⟩
  · rw [FlatBatch.ValueSize, hs]
    simp [FlatBatch.Reset]
  · rw [FlatBatch.Write, hk, hv]
    simp only [FlatBatch.Reset, List.nil_append]
    exact batchWriteLoop_map ps db

theorem encodeAll_append (xs ys : List (List Nat × List Nat)) :
    encodeAll (xs ++ ys) = encodeAll xs ++ encodeAll ys := by
  simp [encodeAll]

theorem encodeAll_cons (p : List Nat × List Nat) (ps : List (List Nat × List Nat)) :
    encodeAll (p :: ps) = encodeRecord p.1 p.2 ++ encodeAll ps := by
  simp [encodeAll]

theorem encodeRecord_length_pos (key value : List Nat) :
    0 < (encodeRecord key value).length := by
  have h := putUvarint_length_pos key.length
  simp [encodeRecord]
  omega

theorem encodeRecord_length_ge_key (key value : List Nat) :
    key.length ≤ (encodeRecord key value).length := by
  simp [encodeRecord]
  omega

theorem encodeRecord_length_ge_val (key value : List Nat) :
    value.length ≤ (encodeRecord key value).length := by
  simp [encodeRecord]
  omega

theorem cumOffsets_concat (gs : List (List (List Nat × List Nat)))
    (g : List (List Nat × List Nat)) : ∀ base,
    cumOffsets base (gs ++ [g]) =
      cumOffsets base gs ++
        [base + (encodeAll gs.flatten).length + (encodeAll g).length] := by
  induction gs with
  | nil =>
    intro base
    simp [cumOffsets, encodeAll]
  | cons g0 gs ih =>
    intro base
    rw [show (g0 :: gs) ++ [g] = g0 :: (gs ++ [g]) from rfl]
    rw [show cumOffsets base (g0 :: (gs ++ [g])) =
        (base + (encodeAll g0).length) ::
          cumOffsets (base + (encodeAll g0).length) (gs ++ [g]) from rfl]
    rw [show cumOffsets base (g0 :: gs) =
        (base + (encodeAll g0).length) ::
          cumOffsets (base + (encodeAll g0).length) gs from rfl]
    have hAB : base + (encodeAll g0).length + (encodeAll gs.flatten).length +
        (encodeAll g).length =
        base + (encodeAll ((g0 :: gs).flatten)).length + (encodeAll g).length := by
      simp only [List.flatten_cons, encodeAll_append, List.length_append]
      omega
    rw [ih, List.cons_append, hAB]

/-- Invariant of the write phase: after some successful Puts, the data
stream holds the encodings of the already flushed chunks `gs`, the buffer
holds the encodings of the still pending entries `rem`, the running offset
counts all encoded bytes, the ghost flush log holds the cumulative chunk
offsets, the index stream is their big-endian image, and only non-empty
chunks have been flushed. -/
structure WInv (db : FlatDatabase) (gs : List (List (List Nat × List Nat)))
    (rem : List (List Nat × List Nat)) : Prop where
  readF : db.read = false
  iterF : db.iterating = false
  dataEq : db.dataFile = encodeAll gs.flatten
  buffEq : db.buff = encodeAll rem
  offEq : db.offset = (encodeAll gs.flatten).length + (encodeAll rem).length
  logEq : db.flushLog = cumOffsets 0 gs
  idxEq : db.indexFile = (db.flushLog.map toBE8).flatten
  gsNE : ∀ g ∈ gs, g ≠ []

theorem WInv_init : WInv newWriteDB [] [] := by
  constructor <;> simp [newWriteDB, encodeAll, cumOffsets]

theorem writeChunk_force (db : FlatDatabase) (f : Bool)
    (hcond : ¬(db.buff.length < chunkSize ∧ f = false)) :
    db.writeChunk f = ({ db with
      dataFile := db.dataFile ++ db.buff,
      flushLog := db.flushLog ++ [db.dataFile.length + db.buff.length],
      buff := [], items := 0,
      indexFile := db.indexFile ++ toBE8 db.offset }, none) := by
  unfold FlatDatabase.writeChunk
  rw [if_neg hcond]

theorem writeChunk_flush {db : FlatDatabase} {gs rem} (W : WInv db gs rem)
    (f : Bool) (hcond : ¬(db.buff.length < chunkSize ∧ f = false))
    (hrem : rem ≠ []) :
    ∃ db2, db.writeChunk f = (db2, none) ∧ WInv db2 (gs ++ [rem]) [] := by
  have hwc := writeChunk_force db f hcond
  refine ⟨_, hwc, ?_⟩
  constructor
  · exact W.readF
  · exact W.iterF
  · show db.dataFile ++ db.buff = _
    simp only [List.flatten_append, List.flatten_cons, List.flatten_nil,
      List.append_nil, encodeAll_append]
    rw [W.dataEq, W.buffEq]
  · rfl
  · show db.offset = _
    simp only [List.flatten_append, List.flatten_cons, List.flatten_nil,
      List.append_nil, encodeAll_append, List.length_append]
    rw [W.offEq]
    simp [encodeAll]
  · show db.flushLog ++ [db.dataFile.length + db.buff.length] = _
    rw [W.logEq, W.dataEq, W.buffEq, cumOffsets_concat]
    simp
  · show db.indexFile ++ toBE8 db.offset = _
    simp only [List.map_append, List.flatten_append]
    rw [W.idxEq]
    simp only [List.map_cons, List.map_nil, List.flatten_cons, List.flatten_nil,
      List.append_nil]
    congr 2
    rw [W.offEq, W.dataEq, W.buffEq]
  · intro g hg
    rcases List.mem_append.mp hg with hg1 | hg2
    · exact W.gsNE g hg1
    · rcases List.mem_singleton.mp hg2 with rfl
      exact hrem

theorem Put_WInv {db : FlatDatabase} {gs rem} (W : WInv db gs rem)
    (key value : List Nat) (hk : key.length ≠ 0) (hv : value.length ≠ 0) :
    ∃ db2 gs2 rem2,
      db.Put key value = (db2, none) ∧ WInv db2 gs2 rem2 ∧
      gs2.flatten ++ rem2 = gs.flatten ++ rem ++ [(key, value)] ∧
      (∀ g ∈ gs2, g ≠ []) := by
  unfold FlatDatabase.Put
  rw [if_neg (by rintro (hc | hc) <;> [exact hk hc; exact hv hc])]
  rw [if_neg (by rw [W.readF]; exact Bool.false_ne_true)]
  dsimp only
  have W1 : WInv { db with
      buff := db.buff ++ (putUvarint key.length ++ key ++
        putUvarint value.length ++ value),
      items := db.items + 1,
      offset := db.offset + (putUvarint key.length ++ key ++
        putUvarint value.length ++ value).length }
      gs (rem ++ [(key, value)]) := by
    constructor
    · exact W.readF
    · exact W.iterF
    · exact W.dataEq
    · show db.buff ++ _ = _
      rw [W.buffEq, encodeAll_append]
      simp [encodeAll, encodeRecord]
    · show db.offset + _ = _
      rw [W.offEq, encodeAll_append]
      simp [encodeAll, encodeRecord]
      omega
    · exact W.logEq
    · exact W.idxEq
    · exact W.gsNE
  by_cases hflush : (db.buff ++ (putUvarint key.length ++ key ++
      putUvarint value.length ++ value)).length < chunkSize
  · refine ⟨_, gs, rem ++ [(key, value)], ?_, W1, by simp, W.gsNE⟩
    unfold FlatDatabase.writeChunk
    rw [if_pos ⟨hflush, rfl⟩]
  · obtain ⟨db2, hwc, W2⟩ := writeChunk_flush W1 false
      (by rintro ⟨hlt, _⟩; exact hflush hlt) (by simp)
    refine ⟨db2, gs ++ [rem ++ [(key, value)]], [], hwc, W2, by simp, ?_⟩
    intro g hg
    rcases List.mem_append.mp hg with hg1 | hg2
    · exact W.gsNE g hg1
    · rcases List.mem_singleton.mp hg2 with rfl
      simp

theorem putList_WInv (entries : List (List Nat × List Nat)) :
    ∀ {db : FlatDatabase} {gs rem}, WInv db gs rem →
    (∀ p ∈ entries, p.1.length ≠ 0 ∧ p.2.length ≠ 0) →
    ∃ db2 gs2 rem2, putList db entries = (db2, none) ∧ WInv db2 gs2 rem2 ∧
      gs2.flatten ++ rem2 = gs.flatten ++ rem ++ entries := by
  induction entries with
  | nil =>
    intro db gs rem W _
    exact ⟨db, gs, rem, rfl, W, by simp⟩
  | cons p ps ih =>
    intro db gs rem W hne
    obtain ⟨k, v⟩ := p
    obtain ⟨hk, hv⟩ := hne (k, v) (by simp)
    obtain ⟨db1, gs1, rem1, hput, W1, hflat1, _⟩ := Put_WInv W k v hk hv
    obtain ⟨db2, gs2, rem2, hrest, W2, hflat2⟩ :=
      ih W1 (fun q hq => hne q (by simp [hq]))
    refine ⟨db2, gs2, rem2, ?_, W2, ?_⟩
    · unfold putList
      rw [hput]
      exact hrest
    · rw [hflat2, hflat1]
      simp

theorem Commit_WInv {db : FlatDatabase} {gs rem} (W : WInv db gs rem) :
    ∃ db2, db.Commit = (db2, none) ∧
      db2.read = true ∧ db2.iterating = false ∧ db2.offset = 0 ∧
      db2.dataPos = 0 ∧ db2.indexPos = 0 ∧ db2.buff = [] ∧
      db2.dataFile = encodeAll ((gs ++ [rem]).flatten) ∧
      db2.flushLog = cumOffsets 0 (gs ++ [rem]) ∧
      db2.indexFile = ((cumOffsets 0 (gs ++ [rem])).map toBE8).flatten := by
  have hwc := writeChunk_force db true (by simp)
  unfold FlatDatabase.Commit
  rw [hwc]
  refine ⟨_, rfl, rfl, W.iterF, rfl, rfl, rfl, rfl, ?_, ?_, ?_⟩
  · show db.dataFile ++ db.buff = _
    simp only [List.flatten_append, List.flatten_cons, List.flatten_nil,
      List.append_nil, encodeAll_append]
    rw [W.dataEq, W.buffEq]
  · show db.flushLog ++ [db.dataFile.length + db.buff.length] = _
    rw [W.logEq, W.dataEq, W.buffEq, cumOffsets_concat]
    simp
  · show db.indexFile ++ toBE8 db.offset = _
    rw [cumOffsets_concat]
    simp only [List.map_append, List.flatten_append]
    rw [W.idxEq, W.logEq]
    simp only [List.map_cons, List.map_nil, List.flatten_cons, List.flatten_nil,
      List.append_nil]
    congr 2
    rw [W.offEq]
    omega

theorem length_toBE8 (n : Nat) : (toBE8 n).length = 8 := rfl

theorem fileRead_zero (content : List Nat) (pos : Nat) :
    fileRead content pos 0 = ([], pos, none) := by
  unfold fileRead
  simp

theorem fileRead_eof (content : List Nat) (pos k : Nat) (hk : k ≠ 0)
    (hge : content.length ≤ pos) :
    fileRead content pos k = ([], pos, some Err.eofErr) := by
  unfold fileRead
  rw [if_neg hk, if_pos hge]

theorem fileRead_exact (content : List Nat) (pos k : Nat) (pre suffix : List Nat)
    (h : content.drop pos = pre ++ suffix) (hlen : pre.length = k) (hk : k ≠ 0) :
    fileRead content pos k = (pre, pos + k, none) := by
  unfold fileRead
  rw [if_neg hk]
  have hdlen := congrArg List.length h
  simp only [List.length_drop, List.length_append] at hdlen
  rw [if_neg (by omega)]
  dsimp only
  rw [h, List.take_left' hlen, hlen]

theorem nextDecode_empty (it : FlatIterator) (hb : it.db.buff = []) :
    nextDecode it = (it, false) := by
  unfold nextDecode
  dsimp only
  rw [hb]
  simp [uvarint, uvarintLoop]

theorem nextDecode_spec (it : FlatIterator) (key value rest : List Nat)
    (hbuff : it.db.buff = encodeRecord key value ++ rest)
    (hk : key.length < 2 ^ 64) (hv : value.length < 2 ^ 64) :
    nextDecode it = ({ it with
      key := key, val := value, db := { it.db with buff := rest } }, true) := by
  have hb : it.db.buff = putUvarint key.length ++
      (key ++ (putUvarint value.length ++ (value ++ rest))) := by
    rw [hbuff]
    simp [encodeRecord]
  have h1 := uvarint_encode key.length
    (key ++ (putUvarint value.length ++ (value ++ rest))) hk
  have h2 := uvarint_encode value.length (value ++ rest) hv
  have hL1 := putUvarint_length_pos key.length
  have hL2 := putUvarint_length_pos value.length
  have hd1 : (putUvarint key.length ++
      (key ++ (putUvarint value.length ++ (value ++ rest)))).drop
        (putUvarint key.length).length =
      key ++ (putUvarint value.length ++ (value ++ rest)) :=
    List.drop_left' rfl
  have ht1 : (key ++ (putUvarint value.length ++ (value ++ rest))).take key.length
      = key := List.take_left' rfl
  have hd2 : (putUvarint key.length ++
      (key ++ (putUvarint value.length ++ (value ++ rest)))).drop
        ((putUvarint key.length).length + key.length) =
      putUvarint value.length ++ (value ++ rest) := by
    rw [show putUvarint key.length ++
        (key ++ (putUvarint value.length ++ (value ++ rest))) =
        (putUvarint key.length ++ key) ++
          (putUvarint value.length ++ (value ++ rest)) by simp]
    exact List.drop_left' (by simp)
  have ht2 : (value ++ rest).take value.length = value := List.take_left' rfl
  have hd3 : (putUvarint key.length ++
      (key ++ (putUvarint value.length ++ (value ++ rest)))).drop
        ((putUvarint key.length).length + key.length +
          (putUvarint value.length).length) =
      value ++ rest := by
    rw [show putUvarint key.length ++
        (key ++ (putUvarint value.length ++ (value ++ rest))) =
        ((putUvarint key.length ++ key) ++ putUvarint value.length) ++
          (value ++ rest) by simp]
    exact List.drop_left' (by simp; omega)
  have hd4 : (putUvarint key.length ++
      (key ++ (putUvarint value.length ++ (value ++ rest)))).drop
        ((putUvarint key.length).length + key.length +
          (putUvarint value.length).length + value.length) =
      rest := by
    rw [show putUvarint key.length ++
        (key ++ (putUvarint value.length ++ (value ++ rest))) =
        (((putUvarint key.length ++ key) ++ putUvarint value.length) ++ value)
          ++ rest by simp]
    exact List.drop_left' (by simp; omega)
  unfold nextDecode
  dsimp only
  rw [hb, h1]
  dsimp only
  rw [if_neg (by omega)]
  simp only [Int.toNat_natCast]
  rw [hd1, ht1, hd2, h2]
  dsimp only
  rw [if_neg (by omega)]
  simp only [Int.toNat_natCast]
  rw [hd3, ht2, hd4]

theorem readChunk_eof (db : FlatDatabase)
    (hge : db.indexFile.length ≤ db.indexPos) :
    db.readChunk = (db, some Err.eofErr) := by
  unfold FlatDatabase.readChunk
  dsimp only
  rw [fileRead_eof db.indexFile db.indexPos 8 (by norm_num) hge]

theorem readChunk_iter (db : FlatDatabase) (g : List (List Nat × List Nat))
    (rest : List (List (List Nat × List Nat)))
    (hoff : db.offset = db.dataPos)
    (hpos : db.dataPos ≤ db.dataFile.length)
    (hdata : db.dataFile.drop db.dataPos = encodeAll ((g :: rest).flatten))
    (hidx : db.indexFile.drop db.indexPos =
      ((cumOffsets db.dataPos (g :: rest)).map toBE8).flatten)
    (hlt : db.dataFile.length < 2 ^ 64) :
    db.readChunk = ({ db with
      indexPos := db.indexPos + 8,
      offset := db.dataPos + (encodeAll g).length,
      dataPos := db.dataPos + (encodeAll g).length,
      buff := encodeAll g }, none) := by
  have hidx2 : db.indexFile.drop db.indexPos =
      toBE8 (db.dataPos + (encodeAll g).length) ++
        ((cumOffsets (db.dataPos + (encodeAll g).length) rest).map toBE8).flatten := by
    rw [hidx]
    simp only [cumOffsets, List.map_cons, List.flatten_cons]
  have hfr1 := fileRead_exact db.indexFile db.indexPos 8
    (toBE8 (db.dataPos + (encodeAll g).length)) _ hidx2 (length_toBE8 _)
    (by norm_num)
  have hdata2 : db.dataFile.drop db.dataPos =
      encodeAll g ++ encodeAll rest.flatten := by
    rw [hdata]
    simp only [List.flatten_cons, encodeAll_append]
  have ho_le : db.dataPos + (encodeAll g).length ≤ db.dataFile.length := by
    have hh := congrArg List.length hdata2
    simp only [List.length_drop, List.length_append] at hh
    omega
  have hBE : fromBE8 (toBE8 (db.dataPos + (encodeAll g).length)) =
      db.dataPos + (encodeAll g).length := by
    rw [fromBE8_toBE8]
    exact Nat.mod_eq_of_lt (by omega)
  unfold FlatDatabase.readChunk
  dsimp only
  rw [hfr1]
  dsimp only
  rw [if_neg (by simp [length_toBE8])]
  rw [hBE, hoff]
  have hsize : db.dataPos + (encodeAll g).length - db.dataPos =
      (encodeAll g).length := by omega
  rw [hsize]
  by_cases hg0 : (encodeAll g).length = 0
  · have hge : encodeAll g = [] := List.eq_nil_of_length_eq_zero hg0
    rw [hg0, fileRead_zero]
    dsimp only
    rw [if_neg (by simp [hge, hg0])]
    simp [hge]
  · have hfr2 := fileRead_exact db.dataFile db.dataPos (encodeAll g).length
      (encodeAll g) (encodeAll rest.flatten) hdata2 rfl hg0
    rw [hfr2]
    dsimp only
    rw [if_neg (by simp)]

/-- Invariant of an iterator part way through a committed database:
`pending` is the not yet decoded tail of the current chunk (held in the
buffer) and `rem` the list of chunks not yet read; the data cursor and
running offset sit at the byte boundary after the current chunk, and the
remaining index bytes are the big-endian offsets of the remaining chunks. -/
structure IterInv (it : FlatIterator) (pending : List (List Nat × List Nat))
    (rem : List (List (List Nat × List Nat))) : Prop where
  eofF : it.eof = false
  errF : it.err = none
  buffEq : it.db.buff = encodeAll pending
  offEq : it.db.offset = it.db.dataPos
  posLe : it.db.dataPos ≤ it.db.dataFile.length
  dataRel : it.db.dataFile.drop it.db.dataPos = encodeAll rem.flatten
  idxRel : it.db.indexFile.drop it.db.indexPos =
    ((cumOffsets it.db.dataPos rem).map toBE8).flatten
  dataLt : it.db.dataFile.length < 2 ^ 64
  pendLe : (encodeAll pending).length ≤ it.db.dataFile.length

theorem Next_deliver {it : FlatIterator} {e : List Nat × List Nat}
    {pending : List (List Nat × List Nat)}
    {rem : List (List (List Nat × List Nat))}
    (inv : IterInv it (e :: pending) rem) :
    ∃ it2, it.Next = (it2, true) ∧ it2.key = e.1 ∧ it2.val = e.2 ∧
      IterInv it2 pending rem := by
  have hbuff : it.db.buff = encodeRecord e.1 e.2 ++ encodeAll pending := by
    rw [inv.buffEq, encodeAll_cons]
  have hrl : (encodeRecord e.1 e.2).length + (encodeAll pending).length ≤
      it.db.dataFile.length := by
    have hp := inv.pendLe
    rw [encodeAll_cons, List.length_append] at hp
    omega
  have hkb : e.1.length < 2 ^ 64 := by
    have hb := encodeRecord_length_ge_key e.1 e.2
    have := inv.dataLt
    omega
  have hvb : e.2.length < 2 ^ 64 := by
    have hb := encodeRecord_length_ge_val e.1 e.2
    have := inv.dataLt
    omega
  have hdec := nextDecode_spec it e.1 e.2 (encodeAll pending) hbuff hkb hvb
  have hne : ¬(it.db.buff.length = 0 ∧ it.eof = false) := by
    rintro ⟨hz, _⟩
    rw [hbuff] at hz
    simp only [List.length_append] at hz
    have := encodeRecord_length_pos e.1 e.2
    omega
  refine ⟨{ it with
      key := e.1, val := e.2, db := { it.db with buff := encodeAll pending } },
    ?_, rfl, rfl, ?_⟩
  · unfold FlatIterator.Next
    rw [if_neg hne, hdec]
  · constructor
    · exact inv.eofF
    · exact inv.errF
    · rfl
    · exact inv.offEq
    · exact inv.posLe
    · exact inv.dataRel
    · exact inv.idxRel
    · exact inv.dataLt
    · show (encodeAll pending).length ≤ it.db.dataFile.length
      omega

theorem Next_refill {it : FlatIterator} {e : List Nat × List Nat}
    {g : List (List Nat × List Nat)} {rest : List (List (List Nat × List Nat))}
    (inv : IterInv it [] ((e :: g) :: rest)) :
    ∃ it2, it.Next = (it2, true) ∧ it2.key = e.1 ∧ it2.val = e.2 ∧
      IterInv it2 g rest := by
  have hrc := readChunk_iter it.db (e :: g) rest inv.offEq inv.posLe
    inv.dataRel inv.idxRel inv.dataLt
  have hchunk_le : (encodeAll (e :: g)).length ≤
      it.db.dataFile.length - it.db.dataPos := by
    have hh := congrArg List.length inv.dataRel
    simp only [List.length_drop, List.flatten_cons, encodeAll_append,
      List.length_append] at hh
    omega
  have hkb : e.1.length < 2 ^ 64 := by
    have hb := encodeRecord_length_ge_key e.1 e.2
    have hc : (encodeRecord e.1 e.2).length ≤ (encodeAll (e :: g)).length := by
      rw [encodeAll_cons, List.length_append]
      omega
    have := inv.dataLt
    omega
  have hvb : e.2.length < 2 ^ 64 := by
    have hb := encodeRecord_length_ge_val e.1 e.2
    have hc : (encodeRecord e.1 e.2).length ≤ (encodeAll (e :: g)).length := by
      rw [encodeAll_cons, List.length_append]
      omega
    have := inv.dataLt
    omega
  have hbz : it.db.buff.length = 0 := by
    rw [inv.buffEq]
    rfl
  unfold FlatIterator.Next
  rw [if_pos ⟨hbz, inv.eofF⟩, hrc]
  dsimp only
  set db1 : FlatDatabase := { it.db with
    indexPos := it.db.indexPos + 8,
    offset := it.db.dataPos + (encodeAll (e :: g)).length,
    dataPos := it.db.dataPos + (encodeAll (e :: g)).length,
    buff := encodeAll (e :: g) } with hdb1
  have hdec := nextDecode_spec { it with db := db1 } e.1 e.2 (encodeAll g)
    (by rw [hdb1]; show encodeAll (e :: g) = _; rw [encodeAll_cons]) hkb hvb
  rw [hdec]
  have hnewpos : it.db.dataPos + (encodeAll (e :: g)).length ≤
      it.db.dataFile.length := by
    have hh := congrArg List.length inv.dataRel
    simp only [List.length_drop, List.flatten_cons, encodeAll_append,
      List.length_append] at hh
    have := inv.posLe
    omega
  refine ⟨{ { it with db := db1 } with
      key := e.1, val := e.2,
      db := { db1 with buff := encodeAll g } }, rfl, rfl, rfl, ?_⟩
  constructor
  · exact inv.eofF
  · exact inv.errF
  · rfl
  · rfl
  · exact hnewpos
  · show it.db.dataFile.drop (it.db.dataPos + (encodeAll (e :: g)).length) =
      encodeAll rest.flatten
    rw [← List.drop_drop]
    rw [show it.db.dataFile.drop it.db.dataPos =
      encodeAll (e :: g) ++ encodeAll rest.flatten from by
        rw [inv.dataRel]
        simp only [List.flatten_cons, encodeAll_append]]
    exact List.drop_left' rfl
  · show it.db.indexFile.drop (it.db.indexPos + 8) =
      ((cumOffsets (it.db.dataPos + (encodeAll (e :: g)).length) rest).map
        toBE8).flatten
    rw [← List.drop_drop]
    rw [show it.db.indexFile.drop it.db.indexPos =
      toBE8 (it.db.dataPos + (encodeAll (e :: g)).length) ++
        ((cumOffsets (it.db.dataPos + (encodeAll (e :: g)).length) rest).map
          toBE8).flatten from by
        rw [inv.idxRel]
        simp only [cumOffsets, List.map_cons, List.flatten_cons]]
    exact List.drop_left' (length_toBE8 _)
  · exact inv.dataLt
  · show (encodeAll g).length ≤ it.db.dataFile.length
    have hc : (encodeAll g).length ≤ (encodeAll (e :: g)).length := by
      rw [encodeAll_cons, List.length_append]
      omega
    have := inv.dataLt
    omega

theorem Next_index_eof {it : FlatIterator} (inv : IterInv it [] []) :
    ∃ it2, it.Next = (it2, false) ∧ it2.err = none ∧ it2.db.buff = [] ∧
      it2.db.indexFile.length ≤ it2.db.indexPos := by
  have hbz : it.db.buff = [] := by rw [inv.buffEq]; rfl
  have hidx : it.db.indexFile.length ≤ it.db.indexPos := by
    have h := inv.idxRel
    simp only [cumOffsets, List.map_nil, List.flatten_nil] at h
    exact List.drop_eq_nil_iff.mp h
  refine ⟨{ it with eof := true }, ?_, inv.errF, hbz, hidx⟩
  unfold FlatIterator.Next
  rw [if_pos ⟨by rw [hbz]; rfl, inv.eofF⟩]
  rw [readChunk_eof it.db hidx]
  dsimp only
  rw [if_pos rfl]

theorem Next_empty_chunk {it : FlatIterator} (inv : IterInv it [] [[]]) :
    ∃ it2, it.Next = (it2, false) ∧ it2.err = none ∧ it2.db.buff = [] ∧
      it2.db.indexFile.length ≤ it2.db.indexPos := by
  have hbz : it.db.buff = [] := by rw [inv.buffEq]; rfl
  have hrc := readChunk_iter it.db [] [] inv.offEq inv.posLe inv.dataRel
    inv.idxRel inv.dataLt
  have hidxlen : it.db.indexFile.length ≤ it.db.indexPos + 8 := by
    have h := inv.idxRel
    rw [show cumOffsets it.db.dataPos [[]] =
      [it.db.dataPos + (encodeAll []).length] from rfl] at h
    simp only [List.map_cons, List.map_nil, List.flatten_cons,
      List.flatten_nil, List.append_nil] at h
    have hh := congrArg List.length h
    simp only [List.length_drop, length_toBE8] at hh
    omega
  unfold FlatIterator.Next
  rw [if_pos ⟨by rw [hbz]; rfl, inv.eofF⟩, hrc]
  dsimp only
  rw [nextDecode_empty _ rfl]
  exact ⟨_, rfl, inv.errF, rfl, hidxlen⟩

theorem Next_terminal {it : FlatIterator} (hb : it.db.buff = [])
    (hidx : it.db.indexFile.length ≤ it.db.indexPos) :
    (it.Next).2 = false := by
  unfold FlatIterator.Next
  cases hEof : it.eof with
  | false =>
    rw [if_pos ⟨by rw [hb]; rfl, rfl⟩]
    rw [readChunk_eof it.db hidx]
    dsimp only
    rw [if_pos rfl]
  | true =>
    rw [if_neg (by rintro ⟨_, h2⟩; cases h2)]
    rw [nextDecode_empty it hb]

theorem drain_succ_true {it it1 : FlatIterator} {fuel : Nat}
    (h : it.Next = (it1, true)) :
    drain it (fuel + 1) =
      ((it1.key, it1.val) :: (drain it1 fuel).1, (drain it1 fuel).2) := by
  have h0 : drain it (fuel + 1) = (match it.Next with
      | (it1, true) => ((it1.key, it1.val) :: (drain it1 fuel).1,
          (drain it1 fuel).2)
      | (it1, false) => ([], it1)) := rfl
  rw [h0, h]

theorem drain_succ_false {it it1 : FlatIterator} {fuel : Nat}
    (h : it.Next = (it1, false)) :
    drain it (fuel + 1) = ([], it1) := by
  have h0 : drain it (fuel + 1) = (match it.Next with
      | (it1, true) => ((it1.key, it1.val) :: (drain it1 fuel).1,
          (drain it1 fuel).2)
      | (it1, false) => ([], it1)) := rfl
  rw [h0, h]

theorem drain_spec (n : Nat) : ∀ (pending : List (List Nat × List Nat))
    (rem : List (List (List Nat × List Nat))) (it : FlatIterator),
    IterInv it pending rem →
    (∀ g ∈ rem.dropLast, g ≠ []) →
    pending.length + rem.flatten.length = n →
    ∃ itf, drain it (n + 1) = (pending ++ rem.flatten, itf) ∧
      itf.err = none ∧ itf.db.buff = [] ∧
      itf.db.indexFile.length ≤ itf.db.indexPos := by
  induction n using Nat.strong_induction_on with
  | _ n IH =>
    intro pending rem it inv hWF hcount
    cases pending with
    | cons e p2 =>
      obtain ⟨e1, e2⟩ := e
      obtain ⟨it2, hnext, hkey, hval, inv2⟩ := Next_deliver inv
      simp only [List.length_cons] at hcount
      have hlt : n - 1 < n := by omega
      obtain ⟨itf, hdrain, herr, hbuf, hidxf⟩ :=
        IH (n - 1) hlt p2 rem it2 inv2 hWF (by omega)
      refine ⟨itf, ?_, herr, hbuf, hidxf⟩
      have hn1 : n + 1 = (n - 1) + 1 + 1 := by omega
      rw [hn1, drain_succ_true hnext, hdrain]
      simp [hkey, hval]
    | nil =>
      cases rem with
      | nil =>
        obtain ⟨it2, hnext, herr, hbuf, hidxf⟩ := Next_index_eof inv
        have hn0 : n = 0 := by simpa using hcount.symm
        subst hn0
        refine ⟨it2, ?_, herr, hbuf, hidxf⟩
        rw [drain_succ_false hnext]
        simp
      | cons g rest2 =>
        cases g with
        | nil =>
          cases rest2 with
          | nil =>
            obtain ⟨it2, hnext, herr, hbuf, hidxf⟩ := Next_empty_chunk inv
            have hn0 : n = 0 := by simpa using hcount.symm
            subst hn0
            refine ⟨it2, ?_, herr, hbuf, hidxf⟩
            rw [drain_succ_false hnext]
            simp
          | cons r rs =>
            exact absurd rfl (hWF [] (by simp))
        | cons e g2 =>
          obtain ⟨e1, e2⟩ := e
          obtain ⟨it2, hnext, hkey, hval, inv2⟩ := Next_refill inv
          have hWF2 : ∀ g2 ∈ rest2.dropLast, g2 ≠ [] := by
            intro g3 hg3
            apply hWF
            cases rest2 with
            | nil => simp at hg3
            | cons r rs => exact List.mem_cons_of_mem _ hg3
          simp only [List.length_nil, List.flatten_cons, List.length_append,
            List.length_cons] at hcount
          have hlt : n - 1 < n := by omega
          obtain ⟨itf, hdrain, herr, hbuf, hidxf⟩ :=
            IH (n - 1) hlt g2 rest2 it2 inv2 hWF2 (by omega)
          refine ⟨itf, ?_, herr, hbuf, hidxf⟩
          have hn1 : n + 1 = (n - 1) + 1 + 1 := by omega
          rw [hn1, drain_succ_true hnext, hdrain]
          simp [hkey, hval]

theorem cumOffsets_chain (gs : List (List (List Nat × List Nat))) :
    ∀ base, List.Chain' (· ≤ ·) (cumOffsets base gs) := by
  induction gs with
  | nil =>
    intro base
    simp [cumOffsets]
  | cons g gs ih =>
    intro base
    show List.Chain' (· ≤ ·) ((base + (encodeAll g).length) ::
      cumOffsets (base + (encodeAll g).length) gs)
    cases gs with
    | nil => simp [cumOffsets]
    | cons g2 gs2 =>
      rw [show cumOffsets (base + (encodeAll g).length) (g2 :: gs2) =
        (base + (encodeAll g).length + (encodeAll g2).length) ::
          cumOffsets (base + (encodeAll g).length + (encodeAll g2).length) gs2
        from rfl]
      refine List.chain'_cons.mpr ⟨by omega, ?_⟩
      exact ih (base + (encodeAll g).length)

theorem flatten_map_toBE8_length (l : List Nat) :
    ((l.map toBE8).flatten).length = 8 * l.length := by
  induction l with
  | nil => simp
  | cons a l ih =>
    simp only [List.map_cons, List.flatten_cons, List.length_append,
      length_toBE8, List.length_cons, ih]
    omega

/-- Engine state immediately after a successful iterator acquisition. -/
def iterStart (db : FlatDatabase) : FlatDatabase :=
  { db with
    iterating := true, dataPos := 0, indexPos := 0, offset := 0, buff := [] }

theorem NewIterator_success (db : FlatDatabase) (h : db.iterating = false) :
    db.NewIterator = (iterStart db,
      some { db := iterStart db, key := [], val := [], err := none, eof := false }) := by
  unfold FlatDatabase.NewIterator iterStart
  rw [if_neg (by rw [h]; exact Bool.false_ne_true)]

/-- C1: putting any sequence of entries with non-empty keys and values (in
machine range: the encoded stream fits a 64-bit offset — the bound is
written as the literal 18446744073709551616 = 2 ^ 64, and every Go
execution satisfies it) succeeds, Commit succeeds, a fresh iterator is
granted, and draining it returns exactly the input pairs in order with no
error, after which Next keeps returning false. -/
theorem C1_round_trip (entries : List (List Nat × List Nat))
    (hne : ∀ p ∈ entries, p.1.length ≠ 0 ∧ p.2.length ≠ 0)
    (hsz : (encodeAll entries).length < 18446744073709551616) :
    ∃ dbw dbc it itf,
      putList newWriteDB entries = (dbw, none) ∧
      dbw.Commit = (dbc, none) ∧
      dbc.NewIterator = (iterStart dbc, some it) ∧
      drain it (entries.length + 1) = (entries, itf) ∧
      itf.Error = none ∧
      (itf.Next).2 = false := by
  have hsz64 : (encodeAll entries).length < 2 ^ 64 := by omega
  obtain ⟨dbw, gs, rem, hput, W, hflat⟩ := putList_WInv entries WInv_init hne
  simp only [List.flatten_nil, List.nil_append] at hflat
  obtain ⟨dbc, hcommit, hread, hiter, hoff, hdpos, hipos, hbuff, hdata, hlog,
    hidx⟩ := Commit_WInv W
  have hfl2 : (gs ++ [rem]).flatten = entries := by
    simp only [List.flatten_append, List.flatten_cons, List.flatten_nil,
      List.append_nil]
    exact hflat
  have hNI := NewIterator_success dbc hiter
  have inv : IterInv
      { db := iterStart dbc, key := [], val := [], err := none, eof := false }
      [] (gs ++ [rem]) := by
    constructor
    · rfl
    · rfl
    · rfl
    · rfl
    · exact Nat.zero_le _
    · show dbc.dataFile.drop 0 = _
      rw [List.drop_zero, hdata]
    · show dbc.indexFile.drop 0 =
        ((cumOffsets 0 (gs ++ [rem])).map toBE8).flatten
      rw [List.drop_zero, hidx]
    · show dbc.dataFile.length < 2 ^ 64
      rw [hdata, hfl2]
      exact hsz64
    · exact Nat.zero_le _
  have hWF : ∀ g ∈ (gs ++ [rem]).dropLast, g ≠ [] := by
    intro g hg
    rw [List.dropLast_concat] at hg
    exact W.gsNE g hg
  obtain ⟨itf, hdrain, herr, hbufz, hidxf⟩ :=
    drain_spec entries.length [] (gs ++ [rem]) _ inv hWF
      (by rw [hfl2]; simp)
  rw [List.nil_append, hfl2] at hdrain
  exact ⟨dbw, dbc, _, itf, hput, hcommit, hNI, hdrain, herr,
    Next_terminal hbufz hidxf⟩

/-- C1 witness: a concrete two-entry sequence satisfies the hypotheses and
the round trip. -/
theorem C1_round_trip_witness :
    (∀ p ∈ [([1], [2]), ([3], [4, 5])],
      p.1.length ≠ 0 ∧ p.2.length ≠ (0 : Nat)) ∧
    (encodeAll [([1], [2]), ([3], [4, 5])]).length < 18446744073709551616 ∧
    (∃ dbw dbc it itf,
      putList newWriteDB [([1], [2]), ([3], [4, 5])] = (dbw, none) ∧
      dbw.Commit = (dbc, none) ∧
      dbc.NewIterator = (iterStart dbc, some it) ∧
      drain it ([([1], [2]), ([3], [4, 5])].length + 1) =
        ([([1], [2]), ([3], [4, 5])], itf) ∧
      itf.Error = none ∧
      (itf.Next).2 = false) :=
  ⟨by decide, by simp [encodeAll, encodeRecord, putUvarint_small],
    C1_round_trip [([1], [2]), ([3], [4, 5])] (by decide)
      (by simp [encodeAll, encodeRecord, putUvarint_small])⟩

/-- C3: running any write phase (successful Puts then Commit), the index
stream is exactly the 8-byte big-endian images of the ghost flush log —
whose entries are by construction the cumulative data-stream byte counts at
the end of each flush — the logged offsets are non-decreasing, the index
holds one 8-byte entry per flush event including the final forced one, and
the last entry equals the total data-stream length. -/
theorem C3_index_entries (entries : List (List Nat × List Nat))
    (hne : ∀ p ∈ entries, p.1.length ≠ 0 ∧ p.2.length ≠ 0) :
    ∃ dbw dbc,
      putList newWriteDB entries = (dbw, none) ∧
      dbw.Commit = (dbc, none) ∧
      dbc.indexFile = (dbc.flushLog.map toBE8).flatten ∧
      List.Chain' (· ≤ ·) dbc.flushLog ∧
      dbc.indexFile.length = 8 * dbc.flushLog.length ∧
      dbc.flushLog.getLast? = some dbc.dataFile.length := by
  obtain ⟨dbw, gs, rem, hput, W, hflat⟩ := putList_WInv entries WInv_init hne
  obtain ⟨dbc, hcommit, _, _, _, _, _, _, hdata, hlog, hidx⟩ := Commit_WInv W
  refine ⟨dbw, dbc, hput, hcommit, ?_, ?_, ?_, ?_⟩
  · rw [hidx, hlog]
  · rw [hlog]
    exact cumOffsets_chain _ 0
  · rw [hidx, hlog, flatten_map_toBE8_length]
  · rw [hlog, hdata, cumOffsets_concat, List.getLast?_concat]
    congr 1
    simp only [List.flatten_append, List.flatten_cons, List.flatten_nil,
      List.append_nil, encodeAll_append, List.length_append]
    omega

/-- C3 witness at a concrete entry sequence. -/
theorem C3_index_entries_witness :
    (∀ p ∈ [([6], [7, 8])], p.1.length ≠ 0 ∧ p.2.length ≠ (0 : Nat)) ∧
    (∃ dbw dbc,
      putList newWriteDB [([6], [7, 8])] = (dbw, none) ∧
      dbw.Commit = (dbc, none) ∧
      dbc.indexFile = (dbc.flushLog.map toBE8).flatten ∧
      List.Chain' (· ≤ ·) dbc.flushLog ∧
      dbc.indexFile.length = 8 * dbc.flushLog.length ∧
      dbc.flushLog.getLast? = some dbc.dataFile.length) :=
  ⟨by decide, C3_index_entries [([6], [7, 8])] (by decide)⟩

end Flatdb
